import Mathlib

/-!
# Verification of the sudokuweb solving and generation engine (`logic.js`)

Shallow embedding of the engine's data model and operations:

* a `Board` is a 9×9 grid of integers (0 = empty, 1–9 = digit),
  modelled as a function `Fin 9 → Fin 9 → Int`;
* `isValidPlacement`, `validateBoard`, `isBoardComplete`, `isBoardSolved`
  mirror the constraint checker of `logic.js`;
* the in-place backtracking solver `solveBoardWithStats` is modelled with
  explicit board passing; its recursion is expressed with an explicit
  fuel bound (the number of empty cells never exceeds 81, and the
  fuel-sufficiency theorems below show the bound is never hit);
* `Math.random` is modelled by an explicit oracle argument supplying the
  Fisher–Yates draws, and `performance.now` by an explicit clock oracle.
-/

set_option maxHeartbeats 1000000

namespace Sudoku

/-- A 9×9 board of integers; 0 denotes an empty cell. -/
def Board : Type := Fin 9 → Fin 9 → Int

/-- A candidate cube: for each cell, an ordered list of candidate values. -/
def Cube : Type := Fin 9 → Fin 9 → List Int

/-- Functional model of the in-place write `board[r][c] = v`. -/
def setCell (b : Board) (r c : Fin 9) (v : Int) : Board :=
  fun r' c' => if r' = r ∧ c' = c then v else b r' c'

/-- All 81 positions in row-major scan order (the order of every
`for (r) for (c)` double loop in `logic.js`). -/
def positionsRM : List (Fin 9 × Fin 9) :=
  (List.finRange 9).flatMap fun r => (List.finRange 9).map fun c => (r, c)

/-- Row index of the top-left corner of the 3×3 box through `x`, offset by
`k`: this is `Math.floor(x / 3) * 3 + k` from `logic.js`. -/
def boxCell (x : Fin 9) (k : Fin 3) : Fin 9 :=
  ⟨x.val / 3 * 3 + k.val, by omega⟩

/-- `isValidPlacement(board, row, col, num)` from `logic.js`: `num` may be
placed at `(row, col)` iff it appears nowhere else in the same row, the
same column, or the same 3×3 box (the cell itself is ignored). -/
def isValidPlacement (b : Board) (row col : Fin 9) (num : Int) : Bool :=
  ((List.finRange 9).all fun c => decide (c = col ∨ b row c ≠ num)) &&
  ((List.finRange 9).all fun r => decide (r = row ∨ b r col ≠ num)) &&
  ((List.finRange 3).all fun i => (List.finRange 3).all fun j =>
    decide ((boxCell row i = row ∧ boxCell col j = col) ∨
      b (boxCell row i) (boxCell col j) ≠ num))

/-- The body of `validateBoard`'s double loop, walking the remaining
positions: a zero cell is skipped, an out-of-range value is flagged and not
further checked (`continue`), otherwise the cell is flagged iff
`isValidPlacement` rejects it. -/
def validateAux (b : Board) : List (Fin 9 × Fin 9) → List (Fin 9 × Fin 9)
  | [] => []
  | (r, c) :: rest =>
    let val := b r c
    if val = 0 then validateAux b rest
    else if val < 1 ∨ 9 < val then (r, c) :: validateAux b rest
    else if ¬ isValidPlacement b r c val then (r, c) :: validateAux b rest
    else validateAux b rest

/-- `validateBoard(board)` from `logic.js`: the list of conflicting
positions in row-major order. -/
def validateBoard (b : Board) : List (Fin 9 × Fin 9) :=
  validateAux b positionsRM

/-- `isBoardComplete(board)`: no empty cell. -/
def isBoardComplete (b : Board) : Bool :=
  positionsRM.all fun p => !decide (b p.1 p.2 = 0)

/-- `isBoardSolved(board)`: complete and without conflicts. -/
def isBoardSolved (b : Board) : Bool :=
  isBoardComplete b && decide ((validateBoard b).length = 0)

/-! ## Randomness, shuffling and the candidate cube -/

/-- Swap the entries at positions `i` and `j` of a list (identity when an
index is out of range; the solver only ever swaps in-range indices).
Models `[arr[i], arr[j]] = [arr[j], arr[i]]`. -/
def listSwap {α : Type} (l : List α) (i j : Nat) : List α :=
  if h : i < l.length ∧ j < l.length then
    (l.set i (l.get ⟨j, h.2⟩)).set j (l.get ⟨i, h.1⟩)
  else l

/-- The Fisher–Yates loop of `shuffleArray`: at index `i > 0` draw
`j = rand i % (i+1)` (the model of `Math.floor(Math.random() * (i + 1))`,
which lies in `[0, i]`) and swap positions `i` and `j`, then continue with
`i - 1`. -/
def fisherYatesAux {α : Type} (rand : Nat → Nat) (l : List α) : Nat → List α
  | 0 => l
  | i + 1 => fisherYatesAux rand (listSwap l (i + 1) (rand (i + 1) % (i + 2))) i

/-- `shuffleArray(arr)` from `logic.js`, with the random draws supplied by
the oracle `rand`. -/
def shuffleArray {α : Type} (rand : Nat → Nat) (l : List α) : List α :=
  fisherYatesAux rand l (l.length - 1)

/-- The literal `[1, 2, 3, 4, 5, 6, 7, 8, 9]` shuffled per cell by
`buildCandidateCube`. -/
def digitsList : List Int := [1, 2, 3, 4, 5, 6, 7, 8, 9]

/-- A per-cell random oracle for building the candidate cube. -/
def RandCube : Type := Fin 9 → Fin 9 → Nat → Nat

/-- `buildCandidateCube()` from `logic.js`: every cell gets its own
shuffled copy of `[1..9]`. -/
def buildCandidateCube (rand : RandCube) : Cube :=
  fun r c => shuffleArray (rand r c) digitsList

/-! ## The backtracking solver -/

/-- The row-major scan for the first empty cell performed at the top of
each `backtrack()` invocation. -/
def findFirstEmpty (b : Board) : Option (Fin 9 × Fin 9) :=
  positionsRM.find? fun p => decide (b p.1 p.2 = 0)

/-- The candidate loop of `backtrack()` at the empty cell `(r, c)`:
`recur` is the recursive call on the board with one more cell filled.
Returns `(solved, board, backtracks)`: the flag, the board as left by the
loop, and the number of times `stats.backtracks++` ran. A candidate is
placed only if `isValidPlacement` accepts it; when the recursive call
fails the placement is reset to `0` and the backtrack counter is
incremented before the next candidate is tried. -/
def tryCands (recur : Board → Bool × Board × Nat) (r c : Fin 9) :
    Board → List Int → Bool × Board × Nat
  | b, [] => (false, b, 0)
  | b, v :: rest =>
    if isValidPlacement b r c v then
      let res := recur (setCell b r c v)
      if res.1 then res
      else
        let res2 := tryCands recur r c (setCell res.2.1 r c 0) rest
        (res2.1, res2.2.1, res.2.2 + 1 + res2.2.2)
    else tryCands recur r c b rest

/-- The recursive `backtrack()` of `solveBoardWithStats`, with an explicit
fuel bound on the recursion depth. Each level scans for the first empty
cell (none: solved) and otherwise runs the candidate loop for that cell.
The `fuel = 0` branch with an empty cell still present is never reached
when `fuel ≥ countEmpty b` (proved below): each recursion fills one empty
cell first. -/
def backtrackFuel (cb : Cube) : Nat → Board → Bool × Board × Nat
  | 0, b =>
    match findFirstEmpty b with
    | none => (true, b, 0)
    | some _ => (false, b, 0)
  | fuel + 1, b =>
    match findFirstEmpty b with
    | none => (true, b, 0)
    | some (r, c) => tryCands (backtrackFuel cb fuel) r c b (cb r c)

/-- The statistics record returned by `solveBoardWithStats`, together with
the final state of the (in JS, mutated-in-place) board. -/
structure SolveResult where
  solved : Bool
  backtracks : Nat
  elapsedMs : ℚ
  board : Board

/-- The cube actually used by `solveBoardWithStats`: the supplied one, or
a freshly built randomized cube when none is supplied. -/
def effCube (cube : Option Cube) (rand : RandCube) : Cube :=
  cube.getD (buildCandidateCube rand)

/-- `solveBoardWithStats(board, cube)` from `logic.js`. `rand` supplies the
`Math.random` draws used when the cube has to be built; `clock` supplies
the two `performance.now()` readings (`clock 0` at entry, `clock 1` at
exit). The number of empty cells never exceeds 81, so fuel 81 suffices
(proved below). -/
def solveBoardWithStats (b : Board) (cube : Option Cube) (rand : RandCube)
    (clock : Nat → ℚ) : SolveResult :=
  let startTime := clock 0
  let cb := effCube cube rand
  let res := backtrackFuel cb 81 b
  { solved := res.1, backtracks := res.2.2
    elapsedMs := clock 1 - startTime, board := res.2.1 }

/-- `solveBoard(board)`: the backward-compatible wrapper. -/
def solveBoard (b : Board) (rand : RandCube) (clock : Nat → ℚ) : Bool :=
  (solveBoardWithStats b none rand clock).solved

/-- `cloneBoard(board)`: a fresh board with the same values (in the
functional model, the values function itself). -/
def cloneBoard (b : Board) : Board := fun r c => b r c

/-- The all-empty board `Array.from({length: 9}, () => Array(9).fill(0))`. -/
def emptyBoard : Board := fun _ _ => 0

/-- `generateFullSolution()`: solve the empty board with a freshly built
randomized cube; returns the solved board and the statistics. -/
def generateFullSolution (rand : RandCube) (clock : Nat → ℚ) :
    Board × SolveResult :=
  let cube := buildCandidateCube rand
  let res := solveBoardWithStats emptyBoard (some cube) rand clock
  (res.board, res)

/-- The result record of `generatePuzzle`. -/
structure GenResult where
  puzzle : Board
  solution : Board
  stats : SolveResult

/-- `generatePuzzle(clues)` from `logic.js`: build a full solution, clone
it, shuffle the list of all 81 positions (draws from `randPos`), and zero
out the first `81 - clues` shuffled positions (the loop also stops at the
end of the position list, hence the `List.take`). -/
def generatePuzzle (clues : Nat) (rand : RandCube) (randPos : Nat → Nat)
    (clock : Nat → ℚ) : GenResult :=
  let gen := generateFullSolution rand clock
  let puzzle0 := cloneBoard gen.1
  let positions := shuffleArray randPos positionsRM
  let toRemove := 81 - clues
  let puzzle := (positions.take toRemove).foldl
    (fun pz p => setCell pz p.1 p.2 0) puzzle0
  { puzzle := puzzle, solution := gen.1, stats := gen.2 }

/-! ## Counting cells -/

/-- The number of empty cells of a board. -/
def countEmpty (b : Board) : Nat :=
  (Finset.univ.filter fun p : Fin 9 × Fin 9 => b p.1 p.2 = 0).card

/-- The number of filled (non-zero) cells of a board. -/
def countFilled (b : Board) : Nat :=
  (Finset.univ.filter fun p : Fin 9 × Fin 9 => b p.1 p.2 ≠ 0).card

/-! ## Concrete boards used in witnesses and counterexamples -/

/-- A board from a flat row-major list of 81 values. -/
def boardOfList (l : List Int) : Board :=
  fun r c => l.getD (r.val * 9 + c.val) 0

/-- The classic solved grid (the completion of the spec's end-to-end
scenario puzzle). -/
def fullBoard : Board := boardOfList
  [5, 3, 4, 6, 7, 8, 9, 1, 2,
   6, 7, 2, 1, 9, 5, 3, 4, 8,
   1, 9, 8, 3, 4, 2, 5, 6, 7,
   8, 5, 9, 7, 6, 1, 4, 2, 3,
   4, 2, 6, 8, 5, 3, 7, 9, 1,
   7, 1, 3, 9, 2, 4, 8, 5, 6,
   9, 6, 1, 5, 3, 7, 2, 8, 4,
   2, 8, 7, 4, 1, 9, 6, 3, 5,
   3, 4, 5, 2, 8, 6, 1, 7, 9]

/-- A complete board that is not a valid solution: every cell holds 1. -/
def onesBoard : Board := fun _ _ => 1

/-- An immediately unsolvable board: the first empty cell `(0,0)` admits
no digit (2–9 occupy its row, 1 its column). -/
def stuckBoard : Board := boardOfList
  [0, 2, 3, 4, 5, 6, 7, 8, 9,
   1, 0, 0, 0, 0, 0, 0, 0, 0,
   0, 0, 0, 0, 0, 0, 0, 0, 0,
   0, 0, 0, 0, 0, 0, 0, 0, 0,
   0, 0, 0, 0, 0, 0, 0, 0, 0,
   0, 0, 0, 0, 0, 0, 0, 0, 0,
   0, 0, 0, 0, 0, 0, 0, 0, 0,
   0, 0, 0, 0, 0, 0, 0, 0, 0,
   0, 0, 0, 0, 0, 0, 0, 0, 0]

/-- The classic grid with cells `(0,7)`, `(0,8)` and `(3,7)` cleared: at
the first empty cell `(0,7)` both 1 and 2 are currently placeable, but
only 1 leads to a solution, so the number of backtracks depends on the
candidate order. -/
def cexBoard : Board := boardOfList
  [5, 3, 4, 6, 7, 8, 9, 0, 0,
   6, 7, 2, 1, 9, 5, 3, 4, 8,
   1, 9, 8, 3, 4, 2, 5, 6, 7,
   8, 5, 9, 7, 6, 1, 4, 0, 3,
   4, 2, 6, 8, 5, 3, 7, 9, 1,
   7, 1, 3, 9, 2, 4, 8, 5, 6,
   9, 6, 1, 5, 3, 7, 2, 8, 4,
   2, 8, 7, 4, 1, 9, 6, 3, 5,
   3, 4, 5, 2, 8, 6, 1, 7, 9]

/-- The ascending cube: every cell's candidate list is `[1..9]`. -/
def ascCube : Cube := fun _ _ => digitsList

/-- A degenerate random oracle: every draw is 0. -/
def zeroRandC : RandCube := fun _ _ _ => 0

/-- The identity-permutation oracle: the draw at index `i` is `i`, so
every Fisher–Yates swap is a self-swap and the shuffle is the identity. -/
def idRandC : RandCube := fun _ _ i => i

/-- A constant clock. -/
def clock0 : Nat → ℚ := fun _ => 0

/-! ## Predicates and value lists used in the statements -/

/-- `q` is adjacent to `p`: a distinct cell in the same row, column, or
3×3 box — exactly the cells scanned by `isValidPlacement` at `p`. -/
def adj (q p : Fin 9 × Fin 9) : Prop :=
  q ≠ p ∧ (q.1 = p.1 ∨ q.2 = p.2 ∨
    (q.1.val / 3 = p.1.val / 3 ∧ q.2.val / 3 = p.2.val / 3))

/-- The flagging condition of `validateBoard` for a single cell. -/
def conflictAt (b : Board) (p : Fin 9 × Fin 9) : Bool :=
  decide (b p.1 p.2 ≠ 0) &&
    (decide (b p.1 p.2 < 1 ∨ 9 < b p.1 p.2) ||
      !isValidPlacement b p.1 p.2 (b p.1 p.2))

/-- A board is conflict-free: every non-zero cell is in range and accepted
by `isValidPlacement`. -/
def Ok (b : Board) : Prop :=
  ∀ r c : Fin 9, b r c ≠ 0 →
    (1 ≤ b r c ∧ b r c ≤ 9 ∧ isValidPlacement b r c (b r c) = true)

/-- A cube whose candidate lists hold only in-range digits (the data
model's candidate cubes — per-cell permutations of 1..9 — satisfy it). -/
def CubeInRange (cb : Cube) : Prop :=
  ∀ (r c : Fin 9) (v : Int), v ∈ cb r c → 1 ≤ v ∧ v ≤ 9

/-- A cube none of whose candidates is 0 (true of every candidate cube the
program builds: they are permutations of 1..9). -/
def CubeNonZero (cb : Cube) : Prop :=
  ∀ (r c : Fin 9) (v : Int), v ∈ cb r c → v ≠ 0

/-- `S` extends `b`: every filled cell of `b` has the same value in `S`. -/
def Extends (b S : Board) : Prop :=
  ∀ r c : Fin 9, b r c ≠ 0 → S r c = b r c

/-- A cube whose candidate lists contain every digit 1..9 (true of every
candidate cube the program builds: they are permutations of 1..9). -/
def CubeComplete (cb : Cube) : Prop :=
  ∀ (r c : Fin 9) (v : Int), 1 ≤ v → v ≤ 9 → v ∈ cb r c

/-- The cell-removal step of `generatePuzzle`. -/
def removeAll (L : List (Fin 9 × Fin 9)) (b : Board) : Board :=
  L.foldl (fun pz p => setCell pz p.1 p.2 0) b

/-- The nine values of row `r`. -/
def rowList (b : Board) (r : Fin 9) : List Int :=
  (List.finRange 9).map fun c => b r c

/-- The nine values of column `c`. -/
def colList (b : Board) (c : Fin 9) : List Int :=
  (List.finRange 9).map fun r => b r c

/-- The cell in box `(i, j)` at offset `(di, dj)`. -/
def boxPos (i j di dj : Fin 3) : Fin 9 × Fin 9 :=
  (⟨3 * i.val + di.val, by omega⟩, ⟨3 * j.val + dj.val, by omega⟩)

/-- The nine values of the 3×3 box with box coordinates `(i, j)`. -/
def boxList (b : Board) (i j : Fin 3) : List Int :=
  (((List.finRange 3).product (List.finRange 3)).map
    fun d => b (boxPos i j d.1 d.2).1 (boxPos i j d.1 d.2).2)

/-! ## Basic facts about positions and `setCell` -/

lemma mem_positionsRM (p : Fin 9 × Fin 9) : p ∈ positionsRM := by
  revert p; decide

lemma nodup_positionsRM : positionsRM.Nodup := by decide

lemma setCell_same (b : Board) (r c : Fin 9) (v : Int) :
    setCell b r c v r c = v := by
  simp [setCell]

lemma setCell_other (b : Board) (r c : Fin 9) (v : Int) {r' c' : Fin 9}
    (h : ¬(r' = r ∧ c' = c)) : setCell b r c v r' c' = b r' c' := by
  simp [setCell, h]

lemma setCell_setCell (b : Board) (r c : Fin 9) (v w : Int) :
    setCell (setCell b r c v) r c w = setCell b r c w := by
  funext r' c'
  by_cases h : r' = r ∧ c' = c <;> simp [setCell, h]

lemma setCell_eq_self (b : Board) (r c : Fin 9) {v : Int} (h : b r c = v) :
    setCell b r c v = b := by
  funext r' c'
  by_cases hc : r' = r ∧ c' = c
  · obtain ⟨h1, h2⟩ := hc; subst h1; subst h2; simp [setCell, h]
  · simp [setCell, hc]

lemma adj_symm {q p : Fin 9 × Fin 9} (h : adj q p) : adj p q := by
  obtain ⟨hne, hrel⟩ := h
  refine ⟨fun e => hne e.symm, ?_⟩
  rcases hrel with h | h | h
  · exact Or.inl h.symm
  · exact Or.inr (Or.inl h.symm)
  · exact Or.inr (Or.inr ⟨h.1.symm, h.2.symm⟩)

lemma boxCell_eq {x y : Fin 9} (h : y.val / 3 = x.val / 3) :
    boxCell x ⟨y.val % 3, Nat.mod_lt _ (by omega)⟩ = y := by
  apply Fin.ext
  simp only [boxCell]
  omega

lemma boxCell_div (x : Fin 9) (k : Fin 3) :
    (boxCell x k).val / 3 = x.val / 3 := by
  have := x.isLt; have := k.isLt
  simp only [boxCell]
  omega

/-- The Prop-level reading of `isValidPlacement`: `num` is accepted at
`p = (row, col)` iff no adjacent cell currently holds `num`. -/
lemma isValidPlacement_iff (b : Board) (row col : Fin 9) (num : Int) :
    isValidPlacement b row col num = true ↔
      ∀ q : Fin 9 × Fin 9, adj q (row, col) → b q.1 q.2 ≠ num := by
  simp only [isValidPlacement, Bool.and_eq_true, List.all_eq_true,
    List.mem_finRange, true_implies, decide_eq_true_eq]
  constructor
  · rintro ⟨⟨hrow, hcol⟩, hbox⟩ ⟨qr, qc⟩ ⟨hne, hrel⟩
    by_cases h1 : qr = row
    · subst h1
      by_cases h2 : qc = col
      · exact absurd (by simp [h2]) hne
      · rcases hrow qc with h | h
        · exact absurd h h2
        · exact h
    · by_cases h2 : qc = col
      · subst h2
        rcases hcol qr with h | h
        · exact absurd h h1
        · exact h
      · have hb : qr.val / 3 = row.val / 3 ∧ qc.val / 3 = col.val / 3 := by
          rcases hrel with h | h | h
          · exact absurd h h1
          · exact absurd h h2
          · exact h
        have e1 := boxCell_eq (x := row) hb.1
        have e2 := boxCell_eq (x := col) hb.2
        rcases hbox ⟨qr.val % 3, Nat.mod_lt _ (by omega)⟩
            ⟨qc.val % 3, Nat.mod_lt _ (by omega)⟩ with h | h
        · rw [e1, e2] at h; exact absurd h.1 h1
        · rwa [e1, e2] at h
  · intro h
    refine ⟨⟨fun c' => ?_, fun r' => ?_⟩, fun i j => ?_⟩
    · by_cases hc : c' = col
      · exact Or.inl hc
      · exact Or.inr (h (row, c') ⟨by simp [hc], Or.inl rfl⟩)
    · by_cases hr : r' = row
      · exact Or.inl hr
      · exact Or.inr (h (r', col) ⟨by simp [Prod.ext_iff, hr], Or.inr (Or.inl rfl)⟩)
    · by_cases hq : boxCell row i = row ∧ boxCell col j = col
      · exact Or.inl hq
      · refine Or.inr (h (boxCell row i, boxCell col j)
          ⟨by simpa [Prod.ext_iff] using hq,
           Or.inr (Or.inr ⟨boxCell_div row i, boxCell_div col j⟩)⟩)

/-! ## `validateBoard` as a filter; the conflict-free predicate -/

lemma validateAux_eq_filter (b : Board) (l : List (Fin 9 × Fin 9)) :
    validateAux b l = l.filter (conflictAt b) := by
  induction l with
  | nil => rfl
  | cons p rest ih =>
    obtain ⟨r, c⟩ := p
    by_cases h0 : b r c = 0
    · simp [validateAux, h0, List.filter, conflictAt, ih]
    · by_cases h1 : b r c < 1 ∨ 9 < b r c
      · simp [validateAux, h0, h1, List.filter, conflictAt, ih]
      · by_cases h2 : isValidPlacement b r c (b r c)
        · simp [validateAux, h0, h1, h2, List.filter, conflictAt, ih]
        · simp [validateAux, h0, h1, h2, List.filter, conflictAt, ih]

lemma validateBoard_eq_filter (b : Board) :
    validateBoard b = positionsRM.filter (conflictAt b) :=
  validateAux_eq_filter b positionsRM

lemma conflictAt_eq_false_iff (b : Board) (p : Fin 9 × Fin 9) :
    conflictAt b p = false ↔
      (b p.1 p.2 ≠ 0 →
        (1 ≤ b p.1 p.2 ∧ b p.1 p.2 ≤ 9 ∧
          isValidPlacement b p.1 p.2 (b p.1 p.2) = true)) := by
  simp only [conflictAt, Bool.and_eq_false_iff, Bool.or_eq_false_iff,
    Bool.not_eq_false', decide_eq_false_iff_not, not_not, not_or, not_lt]
  constructor
  · rintro (h | ⟨⟨h1, h2⟩, h3⟩) hne
    · exact absurd h hne
    · exact ⟨h1, h2, h3⟩
  · intro h
    by_cases hne : b p.1 p.2 = 0
    · exact Or.inl hne
    · obtain ⟨h1, h2, h3⟩ := h hne
      exact Or.inr ⟨⟨h1, h2⟩, h3⟩

lemma validateBoard_eq_nil_iff (b : Board) :
    validateBoard b = [] ↔ Ok b := by
  rw [validateBoard_eq_filter, List.filter_eq_nil_iff]
  constructor
  · intro h r c hne
    exact (conflictAt_eq_false_iff b (r, c)).mp
      (Bool.eq_false_iff.mpr (h (r, c) (mem_positionsRM _))) hne
  · intro h p _
    exact Bool.eq_false_iff.mp ((conflictAt_eq_false_iff b p).mpr (h p.1 p.2))

/-- Placing an in-range value that `isValidPlacement` accepts at an empty
cell of a conflict-free board keeps the board conflict-free. -/
lemma Ok.setCell {b : Board} (hb : Ok b) {r c : Fin 9} {v : Int}
    (h0 : b r c = 0) (h1 : 1 ≤ v) (h2 : v ≤ 9)
    (hv : isValidPlacement b r c v = true) : Ok (setCell b r c v) := by
  intro r' c' hne
  by_cases hp : r' = r ∧ c' = c
  · obtain ⟨e1, e2⟩ := hp; subst e1; subst e2
    rw [setCell_same] at hne ⊢
    refine ⟨h1, h2, ?_⟩
    rw [isValidPlacement_iff] at hv ⊢
    intro q hq
    have hq1 : ¬(q.1 = r' ∧ q.2 = c') := by
      intro ⟨e1, e2⟩
      exact hq.1 (Prod.ext e1 e2)
    rw [setCell_other _ _ _ _ hq1]
    exact hv q hq
  · rw [setCell_other _ _ _ _ hp] at hne ⊢
    obtain ⟨g1, g2, g3⟩ := hb r' c' hne
    refine ⟨g1, g2, ?_⟩
    rw [isValidPlacement_iff] at g3 ⊢
    intro q hq
    by_cases hq1 : q.1 = r ∧ q.2 = c
    · obtain ⟨e1, e2⟩ := hq1
      have hqq : q = (r, c) := Prod.ext e1 e2
      subst hqq
      rw [isValidPlacement_iff] at hv
      -- the placed value `v` does not conflict with the old cell `(r', c')`
      have := hv (r', c') (adj_symm hq)
      simpa [setCell_same] using fun e => this e.symm
    · rw [setCell_other _ _ _ _ hq1]
      exact g3 q hq

/-! ## Empty cells and counting -/

lemma findFirstEmpty_eq_none_iff (b : Board) :
    findFirstEmpty b = none ↔ ∀ r c : Fin 9, b r c ≠ 0 := by
  simp only [findFirstEmpty, List.find?_eq_none, decide_eq_true_eq]
  constructor
  · intro h r c
    exact h (r, c) (mem_positionsRM _)
  · intro h p _
    exact h p.1 p.2

lemma findFirstEmpty_eq_some (b : Board) {r c : Fin 9}
    (h : findFirstEmpty b = some (r, c)) : b r c = 0 := by
  have := List.find?_some h
  simpa using this

lemma isBoardComplete_iff (b : Board) :
    isBoardComplete b = true ↔ ∀ r c : Fin 9, b r c ≠ 0 := by
  simp only [isBoardComplete, List.all_eq_true, Bool.not_eq_eq_eq_not,
    Bool.not_true, decide_eq_false_iff_not]
  constructor
  · intro h r c
    exact h (r, c) (mem_positionsRM _)
  · intro h p _
    exact h p.1 p.2

lemma countFilled_add_countEmpty (b : Board) :
    countFilled b + countEmpty b = 81 := by
  classical
  have h := Finset.filter_card_add_filter_neg_card_eq_card
    (s := (Finset.univ : Finset (Fin 9 × Fin 9)))
    (p := fun p => b p.1 p.2 ≠ 0)
  simp only [not_not, Finset.card_univ, Fintype.card_prod,
    Fintype.card_fin] at h
  simpa [countFilled, countEmpty] using h

lemma countEmpty_eq_zero_iff (b : Board) :
    countEmpty b = 0 ↔ ∀ r c : Fin 9, b r c ≠ 0 := by
  simp only [countEmpty, Finset.card_eq_zero, Finset.filter_eq_empty_iff,
    Finset.mem_univ, true_implies]
  constructor
  · intro h r c
    exact fun e => h (x := (r, c)) e
  · intro h p
    exact h p.1 p.2

lemma countEmpty_setCell_fill (b : Board) {r c : Fin 9} {v : Int}
    (h0 : b r c = 0) (hv : v ≠ 0) :
    countEmpty (setCell b r c v) + 1 = countEmpty b := by
  have hset : (Finset.univ.filter
      fun p : Fin 9 × Fin 9 => setCell b r c v p.1 p.2 = 0) =
      (Finset.univ.filter fun p : Fin 9 × Fin 9 => b p.1 p.2 = 0).erase
        (r, c) := by
    ext p
    by_cases hp : p.1 = r ∧ p.2 = c
    · have : p = (r, c) := Prod.ext hp.1 hp.2
      subst this
      simp [setCell_same, hv]
    · have hne : p ≠ (r, c) := by
        intro e; exact hp (by rw [e]; exact ⟨rfl, rfl⟩)
      simp [setCell_other _ _ _ _ hp, hne]
  have hmem : (r, c) ∈
      (Finset.univ.filter fun p : Fin 9 × Fin 9 => b p.1 p.2 = 0) := by
    simp [h0]
  rw [countEmpty, countEmpty, hset, Finset.card_erase_of_mem hmem]
  have : 0 < (Finset.univ.filter
      fun p : Fin 9 × Fin 9 => b p.1 p.2 = 0).card :=
    Finset.card_pos.mpr ⟨(r, c), hmem⟩
  omega

lemma countEmpty_setCell_clear (b : Board) {r c : Fin 9}
    (h0 : b r c ≠ 0) :
    countEmpty (setCell b r c 0) = countEmpty b + 1 := by
  have h1 : setCell b r c 0 r c = 0 := setCell_same b r c 0
  have h2 : setCell (setCell b r c 0) r c (b r c) = b := by
    rw [setCell_setCell]; exact setCell_eq_self b r c rfl
  have := countEmpty_setCell_fill (setCell b r c 0) (v := b r c) h1 h0
  rw [h2] at this
  omega

/-! ## Solver invariants: restoration, frame, soundness -/

/-- Candidate loop restoration: if every recursive call restores the board
on failure, then so does the loop (each placement is undone with
`board[r][c] = 0`). -/
lemma tryCands_restore {recur : Board → Bool × Board × Nat}
    (hrec : ∀ b', (recur b').1 = false → (recur b').2.1 = b')
    (r c : Fin 9) :
    ∀ (b : Board) (cands : List Int), b r c = 0 →
      (tryCands recur r c b cands).1 = false →
      (tryCands recur r c b cands).2.1 = b := by
  intro b cands
  induction cands generalizing b with
  | nil => intro _ _; rfl
  | cons v rest ih =>
    intro h0 hfail
    by_cases hval : isValidPlacement b r c v
    · rcases hres : recur (setCell b r c v) with ⟨ok, b2, k⟩
      rcases ok with _ | _
      · -- recursive call failed: the placement is reset and the rest tried
        have hb2 : b2 = setCell b r c v := by
          have h' := hrec (setCell b r c v)
          rw [hres] at h'
          exact h' rfl
        have hreset : setCell b2 r c 0 = b := by
          rw [hb2, setCell_setCell, setCell_eq_self b r c h0]
        simp only [tryCands, hval, if_true, hres, hreset] at hfail ⊢
        exact ih b h0 hfail
      · simp only [tryCands, hval, if_true, hres] at hfail
        simp at hfail
    · simp only [tryCands, hval, Bool.false_eq_true, if_false] at hfail ⊢
      exact ih b h0 hfail

/-- `backtrack()` restores the board on failure: when it returns `false`
the board equals the input cell-for-cell. -/
lemma backtrackFuel_restore (cb : Cube) :
    ∀ (fuel : Nat) (b : Board),
      (backtrackFuel cb fuel b).1 = false →
      (backtrackFuel cb fuel b).2.1 = b := by
  intro fuel
  induction fuel with
  | zero =>
    intro b _
    simp only [backtrackFuel]
    rcases h : findFirstEmpty b with _ | p <;> simp [h]
  | succ fuel ih =>
    intro b hfail
    simp only [backtrackFuel] at hfail ⊢
    rcases h : findFirstEmpty b with _ | ⟨r, c⟩
    · simp [h]
    · rw [h] at hfail
      exact tryCands_restore ih r c b (cb r c) (findFirstEmpty_eq_some b h)
        hfail

/-- Candidate loop frame property: cells that are non-zero at entry keep
their value, whatever the outcome. -/
lemma tryCands_frame {recur : Board → Bool × Board × Nat}
    (hrec : ∀ b' r' c', b' r' c' ≠ 0 → (recur b').2.1 r' c' = b' r' c')
    (r c : Fin 9) :
    ∀ (b : Board) (cands : List Int), b r c = 0 →
      ∀ r' c', b r' c' ≠ 0 →
        (tryCands recur r c b cands).2.1 r' c' = b r' c' := by
  intro b cands
  induction cands generalizing b with
  | nil => intro _ r' c' _; rfl
  | cons v rest ih =>
    intro h0 r' c' hne
    have hp : ¬(r' = r ∧ c' = c) := by
      rintro ⟨e1, e2⟩
      rw [e1, e2] at hne
      exact hne h0
    by_cases hval : isValidPlacement b r c v
    · rcases hres : recur (setCell b r c v) with ⟨ok, b2, k⟩
      have hb1 : setCell b r c v r' c' = b r' c' := setCell_other _ _ _ _ hp
      have hb2 : b2 r' c' = b r' c' := by
        have h' := hrec (setCell b r c v) r' c' (by rw [hb1]; exact hne)
        rw [hres] at h'
        simp only at h'
        rw [h', hb1]
      rcases ok with _ | _
      · have hb3 : setCell b2 r c 0 r' c' = b r' c' := by
          rw [setCell_other _ _ _ _ hp, hb2]
        have h0' : setCell b2 r c 0 r c = 0 := setCell_same _ _ _ _
        have h4 := ih (setCell b2 r c 0) h0' r' c' (by rw [hb3]; exact hne)
        simp only [tryCands, hval, if_true, hres]
        simp only [Bool.false_eq_true, if_false]
        rw [h4, hb3]
      · simp only [tryCands, hval, if_true, hres, if_true]
        exact hb2
    · simp only [tryCands, hval, Bool.false_eq_true, if_false]
      exact ih b h0 r' c' hne

/-- The solver never changes a cell that was non-zero at the start of the
call, whether it succeeds or fails. -/
lemma backtrackFuel_frame (cb : Cube) :
    ∀ (fuel : Nat) (b : Board) (r' c' : Fin 9), b r' c' ≠ 0 →
      (backtrackFuel cb fuel b).2.1 r' c' = b r' c' := by
  intro fuel
  induction fuel with
  | zero =>
    intro b r' c' _
    simp only [backtrackFuel]
    rcases h : findFirstEmpty b with _ | p <;> simp [h]
  | succ fuel ih =>
    intro b r' c' hne
    simp only [backtrackFuel]
    rcases h : findFirstEmpty b with _ | ⟨r, c⟩
    · simp [h]
    · simp only
      exact tryCands_frame (fun b' => ih b') r c b (cb r c)
        (findFirstEmpty_eq_some b h) r' c' hne

/-- Candidate-loop soundness: a successful outcome of the loop is a
complete, conflict-free board, provided the recursive call has that
property, restores on failure, and the candidate list is in range. -/
lemma tryCands_sound {recur : Board → Bool × Board × Nat}
    (hrecOk : ∀ b', Ok b' → (recur b').1 = true →
      Ok (recur b').2.1 ∧ ∀ r' c', (recur b').2.1 r' c' ≠ 0)
    (hrecRestore : ∀ b', (recur b').1 = false → (recur b').2.1 = b')
    (r c : Fin 9) :
    ∀ (b : Board) (cands : List Int), b r c = 0 → Ok b →
      (∀ v ∈ cands, 1 ≤ v ∧ v ≤ 9) →
      (tryCands recur r c b cands).1 = true →
      Ok (tryCands recur r c b cands).2.1 ∧
        ∀ r' c', (tryCands recur r c b cands).2.1 r' c' ≠ 0 := by
  intro b cands
  induction cands generalizing b with
  | nil => intro _ _ _ h; simp [tryCands] at h
  | cons v rest ih =>
    intro h0 hOk hrange hsucc
    by_cases hval : isValidPlacement b r c v
    · rcases hres : recur (setCell b r c v) with ⟨ok, b2, k⟩
      rcases ok with _ | _
      · -- recursive call failed: the reset board is `b`, try the rest
        have hb2 : b2 = setCell b r c v := by
          have h' := hrecRestore (setCell b r c v)
          rw [hres] at h'
          exact h' rfl
        have hreset : setCell b2 r c 0 = b := by
          rw [hb2, setCell_setCell, setCell_eq_self b r c h0]
        simp only [tryCands, hval, if_true, hres, hreset,
          Bool.false_eq_true, if_false] at hsucc ⊢
        exact ih b h0 hOk (fun w hw => hrange w (List.mem_cons_of_mem _ hw))
          hsucc
      · -- recursive call succeeded
        have hOk1 : Ok (setCell b r c v) :=
          hOk.setCell h0 (hrange v (List.mem_cons_self v rest)).1
            (hrange v (List.mem_cons_self v rest)).2 hval
        have h' := hrecOk (setCell b r c v) hOk1
        rw [hres] at h'
        simp only at h'
        simp only [tryCands, hval, if_true, hres]
        exact h' trivial
    · simp only [tryCands, hval, Bool.false_eq_true, if_false] at hsucc ⊢
      exact ih b h0 hOk (fun w hw => hrange w (List.mem_cons_of_mem _ hw))
        hsucc

/-- Solver soundness: from a conflict-free board, with an in-range cube,
a successful `backtrack()` leaves a complete conflict-free board. -/
lemma backtrackFuel_sound {cb : Cube} (hcb : CubeInRange cb) :
    ∀ (fuel : Nat) (b : Board), Ok b →
      (backtrackFuel cb fuel b).1 = true →
      Ok (backtrackFuel cb fuel b).2.1 ∧
        ∀ r' c', (backtrackFuel cb fuel b).2.1 r' c' ≠ 0 := by
  intro fuel
  induction fuel with
  | zero =>
    intro b hOk hsucc
    simp only [backtrackFuel] at hsucc ⊢
    rcases h : findFirstEmpty b with _ | p
    · simp only [h]
      exact ⟨hOk, (findFirstEmpty_eq_none_iff b).mp h⟩
    · rw [h] at hsucc; simp at hsucc
  | succ fuel ih =>
    intro b hOk hsucc
    simp only [backtrackFuel] at hsucc ⊢
    rcases h : findFirstEmpty b with _ | ⟨r, c⟩
    · simp only [h]
      exact ⟨hOk, (findFirstEmpty_eq_none_iff b).mp h⟩
    · rw [h] at hsucc
      exact tryCands_sound ih (backtrackFuel_restore cb fuel) r c b (cb r c)
        (findFirstEmpty_eq_some b h) hOk (fun v hv => hcb r c v hv) hsucc

/-! ## Fuel stability: the recursion depth is bounded by the number of
empty cells, so any fuel of at least `countEmpty b` gives the same run -/

lemma tryCands_fuel_eq (cb : Cube) (f : Nat)
    (hA : ∀ b', countEmpty b' ≤ f →
      backtrackFuel cb (f + 1) b' = backtrackFuel cb f b')
    (r c : Fin 9) :
    ∀ (b : Board) (cands : List Int), b r c = 0 → countEmpty b ≤ f + 1 →
      (∀ v ∈ cands, v ≠ 0) →
      tryCands (backtrackFuel cb (f + 1)) r c b cands =
        tryCands (backtrackFuel cb f) r c b cands := by
  intro b cands
  induction cands generalizing b with
  | nil => intro _ _ _; rfl
  | cons v rest ih =>
    intro h0 hcount hnz
    by_cases hval : isValidPlacement b r c v
    · have hv : v ≠ 0 := hnz v (List.mem_cons_self v rest)
      have hdec := countEmpty_setCell_fill b h0 hv
      have heq : backtrackFuel cb (f + 1) (setCell b r c v) =
          backtrackFuel cb f (setCell b r c v) :=
        hA (setCell b r c v) (by omega)
      rcases hres : backtrackFuel cb f (setCell b r c v) with ⟨ok, b2, k⟩
      rcases ok with _ | _
      · have hb2 : b2 = setCell b r c v := by
          have h' := backtrackFuel_restore cb f (setCell b r c v)
          rw [hres] at h'
          exact h' rfl
        have hreset : setCell b2 r c 0 = b := by
          rw [hb2, setCell_setCell, setCell_eq_self b r c h0]
        simp only [tryCands, hval, if_true, heq, hres, hreset,
          Bool.false_eq_true, if_false]
        rw [ih b h0 hcount (fun w hw => hnz w (List.mem_cons_of_mem _ hw))]
      · simp only [tryCands, hval, if_true, heq, hres]
    · simp only [tryCands, hval, Bool.false_eq_true, if_false]
      exact ih b h0 hcount (fun w hw => hnz w (List.mem_cons_of_mem _ hw))

/-- One extra unit of fuel changes nothing once the fuel covers the number
of empty cells: each recursion level fills one empty cell first. -/
lemma backtrackFuel_succ_eq {cb : Cube} (hcb : CubeNonZero cb) :
    ∀ (f : Nat) (b : Board), countEmpty b ≤ f →
      backtrackFuel cb (f + 1) b = backtrackFuel cb f b := by
  intro f
  induction f with
  | zero =>
    intro b hcount
    have hnone : findFirstEmpty b = none := by
      rw [findFirstEmpty_eq_none_iff]
      exact (countEmpty_eq_zero_iff b).mp (Nat.le_zero.mp hcount)
    simp only [backtrackFuel, hnone]
  | succ f ih =>
    intro b hcount
    simp only [backtrackFuel]
    rcases h : findFirstEmpty b with _ | ⟨r, c⟩
    · rfl
    · exact tryCands_fuel_eq cb f ih r c b (cb r c)
        (findFirstEmpty_eq_some b h) hcount (fun v hv => hcb r c v hv)

/-- Any two sufficient fuel values give the same run: the fuel bound in
the embedding is never hit, i.e. the recursion terminates within
`countEmpty b` levels. -/
lemma backtrackFuel_fuel_irrelevant {cb : Cube} (hcb : CubeNonZero cb) :
    ∀ (f₁ f₂ : Nat) (b : Board), countEmpty b ≤ f₁ → countEmpty b ≤ f₂ →
      backtrackFuel cb f₁ b = backtrackFuel cb f₂ b := by
  have key : ∀ (f : Nat) (b : Board), countEmpty b ≤ f →
      backtrackFuel cb f b = backtrackFuel cb (countEmpty b) b := by
    intro f
    induction f with
    | zero =>
      intro b hcount
      rw [Nat.le_zero.mp hcount]
    | succ f ih =>
      intro b hcount
      by_cases hlt : countEmpty b ≤ f
      · rw [backtrackFuel_succ_eq hcb f b hlt]
        exact ih b hlt
      · have : countEmpty b = f + 1 := by omega
        rw [this]
  intro f₁ f₂ b h₁ h₂
  rw [key f₁ b h₁, key f₂ b h₂]

/-! ## Solver completeness -/

/-- If some candidate in the list is valid and leads the recursive call to
success, the candidate loop succeeds (it returns at the first success and
only fails after exhausting the list). -/
lemma tryCands_completeness {recur : Board → Bool × Board × Nat}
    (hrecRestore : ∀ b', (recur b').1 = false → (recur b').2.1 = b')
    (r c : Fin 9) :
    ∀ (b : Board) (cands : List Int) (v : Int), b r c = 0 → v ∈ cands →
      isValidPlacement b r c v = true →
      (recur (setCell b r c v)).1 = true →
      (tryCands recur r c b cands).1 = true := by
  intro b cands
  induction cands generalizing b with
  | nil => intro v _ hmem; simp at hmem
  | cons w rest ih =>
    intro v h0 hmem hval hsucc
    by_cases hw : isValidPlacement b r c w
    · rcases hres : recur (setCell b r c w) with ⟨ok, b2, k⟩
      rcases ok with _ | _
      · -- candidate `w` fails, so `w ≠ v`; reset and use `v` in the rest
        have hwv : w ≠ v := by
          intro e
          subst e
          rw [hres] at hsucc
          simp at hsucc
        have hvrest : v ∈ rest := by
          rcases List.mem_cons.mp hmem with e | h
          · exact absurd e.symm hwv
          · exact h
        have hb2 : b2 = setCell b r c w := by
          have h' := hrecRestore (setCell b r c w)
          rw [hres] at h'
          exact h' rfl
        have hreset : setCell b2 r c 0 = b := by
          rw [hb2, setCell_setCell, setCell_eq_self b r c h0]
        simp only [tryCands, hw, if_true, hres, Bool.false_eq_true,
          if_false, hreset]
        exact ih b v h0 hvrest hval hsucc
      · simp [tryCands, hw, hres]
    · have hwv : w ≠ v := by
        intro e
        rw [e] at hw
        exact hw hval
      have hvrest : v ∈ rest := by
        rcases List.mem_cons.mp hmem with e | h
        · exact absurd e.symm hwv
        · exact h
      simp only [tryCands, hw, Bool.false_eq_true, if_false]
      exact ih b v h0 hvrest hval hsucc

/-- Solver completeness: if a complete conflict-free board `S` extends the
input board, and the cube offers every digit at every cell, `backtrack()`
succeeds (with any fuel covering the number of empty cells). -/
lemma backtrackFuel_completeness {cb : Cube} (hcb : CubeComplete cb)
    {S : Board} (hSOk : Ok S) (hSfull : ∀ r c : Fin 9, S r c ≠ 0) :
    ∀ (fuel : Nat) (b : Board), countEmpty b ≤ fuel → Extends b S →
      (backtrackFuel cb fuel b).1 = true := by
  intro fuel
  induction fuel with
  | zero =>
    intro b hcount _
    have hnone : findFirstEmpty b = none := by
      rw [findFirstEmpty_eq_none_iff]
      exact (countEmpty_eq_zero_iff b).mp (Nat.le_zero.mp hcount)
    simp [backtrackFuel, hnone]
  | succ fuel ih =>
    intro b hcount hext
    simp only [backtrackFuel]
    rcases h : findFirstEmpty b with _ | ⟨r, c⟩
    · rfl
    · have h0 : b r c = 0 := findFirstEmpty_eq_some b h
      set v := S r c with hv
      have hv0 : v ≠ 0 := hSfull r c
      obtain ⟨hv1, hv2, hvS⟩ := hSOk r c hv0
      have hmem : v ∈ cb r c := hcb r c v hv1 hv2
      have hval : isValidPlacement b r c v = true := by
        rw [isValidPlacement_iff]
        intro q hq hqv
        have hq0 : b q.1 q.2 ≠ 0 := by rw [hqv]; exact hv0
        have hSq : S q.1 q.2 = v := by rw [hext q.1 q.2 hq0, hqv]
        rw [isValidPlacement_iff] at hvS
        exact hvS q hq hSq
      have hext1 : Extends (setCell b r c v) S := by
        intro r' c' hne
        by_cases hp : r' = r ∧ c' = c
        · obtain ⟨e1, e2⟩ := hp; subst e1; subst e2
          rw [setCell_same]
        · rw [setCell_other _ _ _ _ hp] at hne ⊢
          exact hext r' c' hne
      have hcount1 : countEmpty (setCell b r c v) ≤ fuel := by
        have := countEmpty_setCell_fill b h0 hv0
        omega
      exact tryCands_completeness (backtrackFuel_restore cb fuel) r c b
        (cb r c) v h0 hmem hval (ih (setCell b r c v) hcount1 hext1)

/-! ## The Fisher–Yates shuffle permutes its input -/

lemma cons_set_perm {α : Type} :
    ∀ (t : List α) (m : Nat) (h : m < t.length) (x : α),
      List.Perm (t.get ⟨m, h⟩ :: t.set m x) (x :: t) := by
  intro t
  induction t with
  | nil => intro m h; simp at h
  | cons b s ih =>
    intro m h x
    cases m with
    | zero => simpa using List.Perm.swap x b s
    | succ m =>
      have hm : m < s.length := by simpa using h
      have h1 : List.Perm (s.get ⟨m, hm⟩ :: b :: s.set m x)
          (b :: s.get ⟨m, hm⟩ :: s.set m x) := List.Perm.swap _ _ _
      have h2 : List.Perm (b :: s.get ⟨m, hm⟩ :: s.set m x)
          (b :: x :: s) := (ih m hm x).cons b
      have h3 : List.Perm (b :: x :: s) (x :: b :: s) := List.Perm.swap _ _ _
      simpa using (h1.trans h2).trans h3

lemma set_set_perm {α : Type} :
    ∀ (l : List α) (i j : Nat) (hi : i < l.length) (hj : j < l.length),
      List.Perm ((l.set i (l.get ⟨j, hj⟩)).set j (l.get ⟨i, hi⟩)) l := by
  intro l
  induction l with
  | nil => intro i j hi; simp at hi
  | cons a t ih =>
    intro i j hi hj
    cases i with
    | zero =>
      cases j with
      | zero => simp
      | succ j =>
        have hjt : j < t.length := by simpa using hj
        simpa using cons_set_perm t j hjt a
    | succ i =>
      have hit : i < t.length := by simpa using hi
      cases j with
      | zero =>
        simpa using cons_set_perm t i hit a
      | succ j =>
        have hjt : j < t.length := by simpa using hj
        simpa using (ih i j hit hjt).cons a

lemma listSwap_perm {α : Type} (l : List α) (i j : Nat) :
    List.Perm (listSwap l i j) l := by
  unfold listSwap
  split
  · rename_i h
    exact set_set_perm l i j h.1 h.2
  · exact List.Perm.refl l

lemma fisherYatesAux_perm {α : Type} (rand : Nat → Nat) :
    ∀ (n : Nat) (l : List α), List.Perm (fisherYatesAux rand l n) l := by
  intro n
  induction n with
  | zero => intro l; exact List.Perm.refl l
  | succ n ih =>
    intro l
    exact (ih _).trans (listSwap_perm l (n + 1) (rand (n + 1) % (n + 2)))

lemma shuffleArray_perm {α : Type} (rand : Nat → Nat) (l : List α) :
    List.Perm (shuffleArray rand l) l :=
  fisherYatesAux_perm rand (l.length - 1) l

lemma mem_digitsList {v : Int} : v ∈ digitsList ↔ 1 ≤ v ∧ v ≤ 9 := by
  simp only [digitsList, List.mem_cons, List.not_mem_nil, or_false]
  omega

lemma buildCandidateCube_perm (rand : RandCube) (r c : Fin 9) :
    List.Perm (buildCandidateCube rand r c) digitsList :=
  shuffleArray_perm (rand r c) digitsList

lemma buildCandidateCube_inRange (rand : RandCube) :
    CubeInRange (buildCandidateCube rand) := by
  intro r c v hv
  exact mem_digitsList.mp ((buildCandidateCube_perm rand r c).mem_iff.mp hv)

lemma buildCandidateCube_nonZero (rand : RandCube) :
    CubeNonZero (buildCandidateCube rand) := by
  intro r c v hv
  have := buildCandidateCube_inRange rand r c v hv
  omega

lemma buildCandidateCube_complete (rand : RandCube) :
    CubeComplete (buildCandidateCube rand) := by
  intro r c v h1 h2
  exact (buildCandidateCube_perm rand r c).mem_iff.mpr
    (mem_digitsList.mpr ⟨h1, h2⟩)

/-! ## Removing cells from a full solution -/

lemma removeAll_countEmpty :
    ∀ (L : List (Fin 9 × Fin 9)) (b : Board), L.Nodup →
      (∀ p ∈ L, b p.1 p.2 ≠ 0) →
      countEmpty (removeAll L b) = countEmpty b + L.length := by
  intro L
  induction L with
  | nil => intro b _ _; simp [removeAll]
  | cons p L' ih =>
    intro b hnd hnz
    have hp : b p.1 p.2 ≠ 0 := hnz p (List.mem_cons_self p L')
    have hnd' : L'.Nodup := hnd.of_cons
    have hpm : p ∉ L' := (List.nodup_cons.mp hnd).1
    have hnz' : ∀ q ∈ L', setCell b p.1 p.2 0 q.1 q.2 ≠ 0 := by
      intro q hq
      have hqp : ¬(q.1 = p.1 ∧ q.2 = p.2) := by
        rintro ⟨e1, e2⟩
        exact hpm ((Prod.ext e1 e2 : q = p) ▸ hq)
      rw [setCell_other _ _ _ _ hqp]
      exact hnz q (List.mem_cons_of_mem _ hq)
    have : removeAll (p :: L') b = removeAll L' (setCell b p.1 p.2 0) := rfl
    rw [this, ih (setCell b p.1 p.2 0) hnd' hnz',
      countEmpty_setCell_clear b hp]
    simp [List.length_cons]
    omega

lemma removeAll_agree :
    ∀ (L : List (Fin 9 × Fin 9)) (b : Board) (r c : Fin 9),
      removeAll L b r c = 0 ∨ removeAll L b r c = b r c := by
  intro L
  induction L with
  | nil => intro b r c; exact Or.inr rfl
  | cons p L' ih =>
    intro b r c
    have : removeAll (p :: L') b = removeAll L' (setCell b p.1 p.2 0) := rfl
    rw [this]
    rcases ih (setCell b p.1 p.2 0) r c with h | h
    · exact Or.inl h
    · by_cases hp : r = p.1 ∧ c = p.2
      · rw [h, setCell, if_pos hp]
        exact Or.inl rfl
      · rw [h, setCell_other _ _ _ _ hp]
        exact Or.inr rfl

/-! ## Rows, columns and boxes as value lists (for the solution-validity
statement of the spec) -/

/-- On a complete conflict-free board, adjacent cells hold distinct
values. -/
lemma adj_values_ne {b : Board} (hOk : Ok b)
    (hfull : ∀ r c : Fin 9, b r c ≠ 0) {p q : Fin 9 × Fin 9}
    (hadj : adj p q) : b p.1 p.2 ≠ b q.1 q.2 := by
  obtain ⟨_, _, hval⟩ := hOk q.1 q.2 (hfull q.1 q.2)
  rw [isValidPlacement_iff] at hval
  exact hval p hadj

/-- A nodup 9-element list of digits 1..9 is a permutation of
`digitsList`. -/
lemma perm_digits_of_nodup_subset {l : List Int} (hnd : l.Nodup)
    (hsub : l ⊆ digitsList) (hlen : l.length = 9) :
    List.Perm l digitsList := by
  refine (List.subperm_of_subset hnd hsub).perm_of_length_le ?_
  simp [digitsList, hlen]

lemma count_digits {d : Int} (h1 : 1 ≤ d) (h2 : d ≤ 9) :
    digitsList.count d = 1 :=
  List.count_eq_one_of_mem (by decide) (mem_digitsList.mpr ⟨h1, h2⟩)

lemma rowList_count {b : Board} (hOk : Ok b)
    (hfull : ∀ r c : Fin 9, b r c ≠ 0) (r : Fin 9) {d : Int}
    (h1 : 1 ≤ d) (h2 : d ≤ 9) : (rowList b r).count d = 1 := by
  have hnd : (rowList b r).Nodup := by
    refine List.Nodup.map_on ?_ (List.nodup_finRange 9)
    intro c1 _ c2 _ he
    by_contra hne
    exact adj_values_ne hOk hfull
      (p := (r, c1)) (q := (r, c2)) ⟨by simp [Prod.ext_iff, hne], Or.inl rfl⟩ he
  have hsub : rowList b r ⊆ digitsList := by
    intro v hv
    obtain ⟨c, _, hc⟩ := List.mem_map.mp hv
    obtain ⟨g1, g2, _⟩ := hOk r c (hfull r c)
    exact hc ▸ mem_digitsList.mpr ⟨g1, g2⟩
  have hperm := perm_digits_of_nodup_subset hnd hsub (by simp [rowList])
  rw [hperm.count_eq]
  exact count_digits h1 h2

lemma colList_count {b : Board} (hOk : Ok b)
    (hfull : ∀ r c : Fin 9, b r c ≠ 0) (c : Fin 9) {d : Int}
    (h1 : 1 ≤ d) (h2 : d ≤ 9) : (colList b c).count d = 1 := by
  have hnd : (colList b c).Nodup := by
    refine List.Nodup.map_on ?_ (List.nodup_finRange 9)
    intro r1 _ r2 _ he
    by_contra hne
    exact adj_values_ne hOk hfull
      (p := (r1, c)) (q := (r2, c))
      ⟨by simp [Prod.ext_iff, hne], Or.inr (Or.inl rfl)⟩ he
  have hsub : colList b c ⊆ digitsList := by
    intro v hv
    obtain ⟨r, _, hr⟩ := List.mem_map.mp hv
    obtain ⟨g1, g2, _⟩ := hOk r c (hfull r c)
    exact hr ▸ mem_digitsList.mpr ⟨g1, g2⟩
  have hperm := perm_digits_of_nodup_subset hnd hsub (by simp [colList])
  rw [hperm.count_eq]
  exact count_digits h1 h2

lemma boxList_count {b : Board} (hOk : Ok b)
    (hfull : ∀ r c : Fin 9, b r c ≠ 0) (i j : Fin 3) {d : Int}
    (h1 : 1 ≤ d) (h2 : d ≤ 9) : (boxList b i j).count d = 1 := by
  have hnd : (boxList b i j).Nodup := by
    refine List.Nodup.map_on ?_
      ((List.nodup_finRange 3).product (List.nodup_finRange 3))
    intro d1 _ d2 _ he
    by_contra hne
    have hposne : boxPos i j d1.1 d1.2 ≠ boxPos i j d2.1 d2.2 := by
      intro e
      apply hne
      have e1 : (3 * i.val + d1.1.val : Nat) = 3 * i.val + d2.1.val :=
        congrArg (fun p : Fin 9 × Fin 9 => p.1.val) e
      have e2 : (3 * j.val + d1.2.val : Nat) = 3 * j.val + d2.2.val :=
        congrArg (fun p : Fin 9 × Fin 9 => p.2.val) e
      have : d1.1 = d2.1 := Fin.ext (by omega)
      have : d1.2 = d2.2 := Fin.ext (by omega)
      exact Prod.ext ‹d1.1 = d2.1› ‹d1.2 = d2.2›
    have hbox : adj (boxPos i j d1.1 d1.2) (boxPos i j d2.1 d2.2) := by
      refine ⟨hposne, Or.inr (Or.inr ⟨?_, ?_⟩)⟩
      · show (3 * i.val + d1.1.val) / 3 = (3 * i.val + d2.1.val) / 3
        omega
      · show (3 * j.val + d1.2.val) / 3 = (3 * j.val + d2.2.val) / 3
        omega
    exact adj_values_ne hOk hfull hbox he
  have hsub : boxList b i j ⊆ digitsList := by
    intro v hv
    obtain ⟨dd, _, hdd⟩ := List.mem_map.mp hv
    obtain ⟨g1, g2, _⟩ := hOk (boxPos i j dd.1 dd.2).1 (boxPos i j dd.1 dd.2).2
      (hfull _ _)
    exact hdd ▸ mem_digitsList.mpr ⟨g1, g2⟩
  have hperm := perm_digits_of_nodup_subset hnd hsub
    (by simp [boxList]; decide)
  rw [hperm.count_eq]
  exact count_digits h1 h2

/-! ## Shared concrete facts and unfolding lemmas -/

lemma fullBoard_valid : validateBoard fullBoard = [] := by decide

lemma fullBoard_full : ∀ r c : Fin 9, fullBoard r c ≠ 0 := by decide

lemma countEmpty_emptyBoard : countEmpty emptyBoard = 81 := by decide

lemma Ok_emptyBoard : Ok emptyBoard := by
  intro r c h
  exact absurd rfl h

lemma solve_solved_eq (b : Board) (cube : Option Cube) (rand : RandCube)
    (clock : Nat → ℚ) : (solveBoardWithStats b cube rand clock).solved =
      (backtrackFuel (effCube cube rand) 81 b).1 := rfl

lemma solve_board_eq (b : Board) (cube : Option Cube) (rand : RandCube)
    (clock : Nat → ℚ) : (solveBoardWithStats b cube rand clock).board =
      (backtrackFuel (effCube cube rand) 81 b).2.1 := rfl

lemma solve_backtracks_eq (b : Board) (cube : Option Cube) (rand : RandCube)
    (clock : Nat → ℚ) : (solveBoardWithStats b cube rand clock).backtracks =
      (backtrackFuel (effCube cube rand) 81 b).2.2 := rfl

lemma solve_elapsed_eq (b : Board) (cube : Option Cube) (rand : RandCube)
    (clock : Nat → ℚ) : (solveBoardWithStats b cube rand clock).elapsedMs =
      clock 1 - clock 0 := rfl

lemma backtrackFuel_of_complete (cb : Cube) (fuel : Nat) (b : Board)
    (h : findFirstEmpty b = none) : backtrackFuel cb fuel b = (true, b, 0) := by
  cases fuel <;> simp [backtrackFuel, h]

/-! # Claim theorems -/

/-- Claim C5: For every 9×9 board: if `solveBoardWithStats` returns with
`solved = false`, then the board after the call equals the board before
the call cell-for-cell — every placement made during the search has been
undone. -/
theorem c5_failure_restores (b : Board) (cube : Option Cube)
    (rand : RandCube) (clock : Nat → ℚ)
    (h : (solveBoardWithStats b cube rand clock).solved = false) :
    (solveBoardWithStats b cube rand clock).board = b := by
  rw [solve_board_eq]
  rw [solve_solved_eq] at h
  exact backtrackFuel_restore (effCube cube rand) 81 b h

/-- Witness for C5: the board whose first empty cell `(0,0)` admits no
digit is reported unsolvable, and is returned unchanged. -/
theorem c5_witness :
    (solveBoardWithStats stuckBoard (some ascCube) zeroRandC clock0).solved
        = false ∧
      (solveBoardWithStats stuckBoard (some ascCube) zeroRandC clock0).board
        = stuckBoard :=
  ⟨by decide,
   c5_failure_restores stuckBoard (some ascCube) zeroRandC clock0 (by decide)⟩

/-- Claim C9: The solver only ever writes to cells that contained 0 at the
start of the call: every cell that is non-zero before the call holds the
same value after the call, whether the solve succeeds or fails. -/
theorem c9_frame (b : Board) (cube : Option Cube) (rand : RandCube)
    (clock : Nat → ℚ) (r c : Fin 9) (h : b r c ≠ 0) :
    (solveBoardWithStats b cube rand clock).board r c = b r c := by
  rw [solve_board_eq]
  exact backtrackFuel_frame (effCube cube rand) 81 b r c h

/-- Witness for C9: solving the stuck board leaves its filled cell
`(1,0) = 1` untouched. -/
theorem c9_witness :
    stuckBoard 1 0 ≠ 0 ∧
      (solveBoardWithStats stuckBoard (some ascCube) zeroRandC clock0).board
        1 0 = stuckBoard 1 0 :=
  ⟨by decide, c9_frame stuckBoard (some ascCube) zeroRandC clock0 1 0
    (by decide)⟩

/-- Claim C8: For every solve call, the statistics record has
`backtrackCount ≥ 0`, and — since `performance.now` is non-decreasing,
modelled as `clock 0 ≤ clock 1` — `elapsedMilliseconds ≥ 0`. -/
theorem c8_stats_nonneg (b : Board) (cube : Option Cube) (rand : RandCube)
    (clock : Nat → ℚ) :
    0 ≤ (solveBoardWithStats b cube rand clock).backtracks ∧
      (clock 0 ≤ clock 1 →
        0 ≤ (solveBoardWithStats b cube rand clock).elapsedMs) := by
  refine ⟨Nat.zero_le _, fun h => ?_⟩
  rw [solve_elapsed_eq]
  linarith

/-- Witness for C8 at a concrete call with a monotone clock. -/
theorem c8_witness :
    0 ≤ (solveBoardWithStats emptyBoard (some ascCube) zeroRandC
        clock0).backtracks ∧
      0 ≤ (solveBoardWithStats emptyBoard (some ascCube) zeroRandC
        clock0).elapsedMs :=
  ⟨(c8_stats_nonneg emptyBoard (some ascCube) zeroRandC clock0).1,
   (c8_stats_nonneg emptyBoard (some ascCube) zeroRandC clock0).2
     (by norm_num [clock0])⟩

/-- Claim C10: If the input board has no empty cell, `solveBoardWithStats`
returns `solved = true` with 0 backtracks and leaves the board unchanged —
the pre-filled cells are never validated (the witness exercises a complete
board that is not a valid solution). -/
theorem c10_complete_short_circuit (b : Board) (cube : Option Cube)
    (rand : RandCube) (clock : Nat → ℚ) (h : isBoardComplete b = true) :
    (solveBoardWithStats b cube rand clock).solved = true ∧
      (solveBoardWithStats b cube rand clock).backtracks = 0 ∧
      (solveBoardWithStats b cube rand clock).board = b := by
  have hnone : findFirstEmpty b = none := by
    rw [findFirstEmpty_eq_none_iff]
    exact (isBoardComplete_iff b).mp h
  have hrun := backtrackFuel_of_complete (effCube cube rand) 81 b hnone
  rw [solve_solved_eq, solve_backtracks_eq, solve_board_eq, hrun]
  exact ⟨rfl, rfl, rfl⟩

/-- Witness for C10: the all-ones board is complete but not a valid
solution, yet the solver reports success with zero backtracks. -/
theorem c10_witness :
    isBoardComplete onesBoard = true ∧ isBoardSolved onesBoard = false ∧
      (solveBoardWithStats onesBoard none zeroRandC clock0).solved = true ∧
      (solveBoardWithStats onesBoard none zeroRandC clock0).backtracks = 0 :=
  ⟨by decide, by decide,
   (c10_complete_short_circuit onesBoard none zeroRandC clock0 (by decide)).1,
   (c10_complete_short_circuit onesBoard none zeroRandC clock0 (by decide)).2.1⟩

/-- Claim C7: Termination: filling the first empty cell with a (non-zero)
candidate strictly decreases the number of empty cells, and consequently
the recursion depth of `backtrack()` is bounded by the number of empty
cells — running the fuelled recursion with any two sufficient fuel values
(in particular 81, which always suffices) yields identical results, for
any cube without zero candidates (every cube the program builds is a
permutation of 1..9 per cell). -/
theorem c7_termination (cb : Cube) (hcb : CubeNonZero cb) (b : Board)
    (r c : Fin 9) (v : Int) (h0 : b r c = 0) (hv : v ≠ 0)
    (f₁ f₂ : Nat) (h₁ : countEmpty b ≤ f₁) (h₂ : countEmpty b ≤ f₂) :
    countEmpty (setCell b r c v) < countEmpty b ∧
      backtrackFuel cb f₁ b = backtrackFuel cb f₂ b := by
  constructor
  · have := countEmpty_setCell_fill b h0 hv
    omega
  · exact backtrackFuel_fuel_irrelevant hcb f₁ f₂ b h₁ h₂

/-- Witness for C7 at the empty board with the ascending cube and fuels
81 and 200. -/
theorem c7_witness :
    countEmpty (setCell emptyBoard 0 0 5) < countEmpty emptyBoard ∧
      backtrackFuel ascCube 81 emptyBoard = backtrackFuel ascCube 200
        emptyBoard :=
  c7_termination ascCube
    (fun r c v hv => by
      have := mem_digitsList.mp hv
      omega)
    emptyBoard 0 0 5 rfl (by decide) 81 200
    (by rw [countEmpty_emptyBoard]) (by rw [countEmpty_emptyBoard]; omega)

/-- Claim C1 counterexample: The claim as stated is false: the all-ones
board (all cells in [0,9], no empty cell) makes `solveBoardWithStats`
return `solved = true`, yet `isBoardSolved` is false on the resulting
board — the solver never validates pre-filled cells. -/
theorem c1_counterexample :
    (solveBoardWithStats onesBoard (some ascCube) zeroRandC clock0).solved
        = true ∧
      isBoardSolved
        (solveBoardWithStats onesBoard (some ascCube) zeroRandC
          clock0).board = false := by
  constructor
  · decide
  · decide

/-- Claim C1 as amended: If the input board passes `validateBoard` (empty
conflict list) and the candidate cube in effect offers only values in
[1,9] (which the internally built cube always does), then `solved = true`
implies the mutated board satisfies `isBoardSolved`. -/
theorem c1_solver_sound_amended (b : Board) (cube : Option Cube)
    (rand : RandCube) (clock : Nat → ℚ)
    (hv : validateBoard b = [])
    (hcube : CubeInRange (effCube cube rand))
    (hs : (solveBoardWithStats b cube rand clock).solved = true) :
    isBoardSolved (solveBoardWithStats b cube rand clock).board = true := by
  rw [solve_solved_eq] at hs
  rw [solve_board_eq]
  have hOk := (validateBoard_eq_nil_iff b).mp hv
  obtain ⟨hOk', hfull⟩ := backtrackFuel_sound hcube 81 b hOk hs
  rw [isBoardSolved, Bool.and_eq_true]
  constructor
  · rw [isBoardComplete_iff]
    exact hfull
  · rw [(validateBoard_eq_nil_iff _).mpr hOk']
    decide

/-- Witness for the amended C1 at a conflict-free complete board. -/
theorem c1_witness :
    validateBoard fullBoard = [] ∧
      isBoardSolved
        (solveBoardWithStats fullBoard (some ascCube) zeroRandC
          clock0).board = true :=
  ⟨fullBoard_valid,
   c1_solver_sound_amended fullBoard (some ascCube) zeroRandC clock0
     fullBoard_valid (fun r c v hv => mem_digitsList.mp hv) (by decide)⟩

/-- Claim C4: `validateBoard` returns, in row-major scan order, exactly the
positions of the non-zero cells whose value is out of range or rejected by
`isValidPlacement` (each flagged at most once — the returned list has no
duplicates, as the range check short-circuits the placement check), and
for two equal non-zero values in one row both positions are returned. -/
theorem c4_validateBoard_spec (b : Board) :
    validateBoard b = positionsRM.filter (conflictAt b) ∧
      (validateBoard b).Nodup ∧
      ∀ r c₁ c₂ : Fin 9, c₁ ≠ c₂ → b r c₁ ≠ 0 → b r c₁ = b r c₂ →
        (r, c₁) ∈ validateBoard b ∧ (r, c₂) ∈ validateBoard b := by
  refine ⟨validateBoard_eq_filter b, ?_, ?_⟩
  · rw [validateBoard_eq_filter b]
    exact nodup_positionsRM.filter _
  · intro r c₁ c₂ hne hnz heq
    have key : ∀ cₐ cᵦ : Fin 9, cₐ ≠ cᵦ → b r cₐ ≠ 0 → b r cₐ = b r cᵦ →
        (r, cₐ) ∈ validateBoard b := by
      intro cₐ cᵦ hab ha he
      rw [validateBoard_eq_filter b, List.mem_filter]
      refine ⟨mem_positionsRM _, ?_⟩
      simp only [conflictAt, Bool.and_eq_true, Bool.or_eq_true,
        decide_eq_true_eq, Bool.not_eq_eq_eq_not, Bool.not_true]
      refine ⟨ha, ?_⟩
      by_cases hr : b r cₐ < 1 ∨ 9 < b r cₐ
      · exact Or.inl hr
      · refine Or.inr ?_
        rw [Bool.eq_false_iff]
        intro hval
        rw [isValidPlacement_iff] at hval
        exact hval (r, cᵦ)
          ⟨by simp [Prod.ext_iff]; exact fun e => hab e.symm, Or.inl rfl⟩
          he.symm
    have h2 : b r c₂ ≠ 0 := by rw [← heq]; exact hnz
    exact ⟨key c₁ c₂ hne hnz heq, key c₂ c₁ (Ne.symm hne) h2 heq.symm⟩

/-- Witness for C4 on a board with two 5s in row 0: both cells are
reported, and the conflict list has no duplicates. -/
theorem c4_witness :
    (validateBoard (boardOfList [5, 5])).Nodup ∧
      ((0, 0) : Fin 9 × Fin 9) ∈ validateBoard (boardOfList [5, 5]) ∧
      ((0, 1) : Fin 9 × Fin 9) ∈ validateBoard (boardOfList [5, 5]) :=
  ⟨(c4_validateBoard_spec (boardOfList [5, 5])).2.1,
   ((c4_validateBoard_spec (boardOfList [5, 5])).2.2 0 0 1 (by decide)
     (by decide) (by decide)).1,
   ((c4_validateBoard_spec (boardOfList [5, 5])).2.2 0 0 1 (by decide)
     (by decide) (by decide)).2⟩

/-- Claim C3: A board with an empty conflict list and no empty cell is a
valid completed Sudoku: every row, column and 3×3 box contains each digit
1..9 exactly once. -/
theorem c3_zero_conflicts_solved (b : Board)
    (h1 : validateBoard b = []) (h2 : isBoardComplete b = true) :
    (∀ (r : Fin 9) (d : Int), 1 ≤ d → d ≤ 9 → (rowList b r).count d = 1) ∧
      (∀ (c : Fin 9) (d : Int), 1 ≤ d → d ≤ 9 →
        (colList b c).count d = 1) ∧
      (∀ (i j : Fin 3) (d : Int), 1 ≤ d → d ≤ 9 →
        (boxList b i j).count d = 1) := by
  have hOk := (validateBoard_eq_nil_iff b).mp h1
  have hfull := (isBoardComplete_iff b).mp h2
  exact ⟨fun r d hd1 hd2 => rowList_count hOk hfull r hd1 hd2,
    fun c d hd1 hd2 => colList_count hOk hfull c hd1 hd2,
    fun i j d hd1 hd2 => boxList_count hOk hfull i j hd1 hd2⟩

/-- Witness for C3 on the classic solved grid, e.g. digit 5 appears
exactly once in row 0, column 0 and box (0,0). -/
theorem c3_witness :
    (rowList fullBoard 0).count 5 = 1 ∧ (colList fullBoard 0).count 5 = 1 ∧
      (boxList fullBoard 0 0).count 5 = 1 :=
  ⟨(c3_zero_conflicts_solved fullBoard fullBoard_valid (by decide)).1 0 5
      (by decide) (by decide),
   (c3_zero_conflicts_solved fullBoard fullBoard_valid (by decide)).2.1 0 5
      (by decide) (by decide),
   (c3_zero_conflicts_solved fullBoard fullBoard_valid (by decide)).2.2 0 0 5
      (by decide) (by decide)⟩

/-- Claim C6 counterexample: With no cube supplied the solver does NOT try
candidates in ascending order: it builds a randomized cube. Under the
all-zero random oracle every cell's candidate list is
`[2,3,4,5,6,7,8,9,1]`, and on `cexBoard` the no-cube call performs 1
backtrack while the ascending-cube call performs 0 — the two runs
differ, so the order tried is not ascending. -/
theorem c6_counterexample :
    buildCandidateCube zeroRandC 0 0 = [2, 3, 4, 5, 6, 7, 8, 9, 1] ∧
      (solveBoardWithStats cexBoard none zeroRandC clock0).backtracks = 1 ∧
      (solveBoardWithStats cexBoard (some ascCube) zeroRandC
        clock0).backtracks = 0 := by
  refine ⟨by decide, by decide, by decide⟩

/-- Claim C6 as amended: When no cube is supplied, `solveBoardWithStats`
builds a randomized candidate cube with `buildCandidateCube` and behaves
exactly as if that cube had been passed explicitly; the candidate order at
each empty cell is the cube's per-cell shuffled list, which is ascending
1..9 precisely when the Fisher–Yates draws are the identity (`j = i` at
every step). -/
theorem c6_default_cube_order (b : Board) (rand : RandCube)
    (clock : Nat → ℚ) :
    solveBoardWithStats b none rand clock =
        solveBoardWithStats b (some (buildCandidateCube rand)) rand clock ∧
      ∀ r c : Fin 9, buildCandidateCube idRandC r c = digitsList := by
  exact ⟨rfl, by decide⟩

/-- The board produced by `generateFullSolution` is complete: the empty
board always has a solution extending it (e.g. the classic grid), the
built cube offers every digit at every cell, and backtracking search is
complete, so the solve succeeds and fills every cell. -/
lemma generateFullSolution_board_eq (rand : RandCube) (clock : Nat → ℚ) :
    (generateFullSolution rand clock).1 =
      (backtrackFuel (buildCandidateCube rand) 81 emptyBoard).2.1 := by
  simp only [generateFullSolution, solveBoardWithStats, effCube, Option.getD]

lemma generateFullSolution_complete (rand : RandCube) (clock : Nat → ℚ) :
    ∀ r c : Fin 9, (generateFullSolution rand clock).1 r c ≠ 0 := by
  have hOkS : Ok fullBoard := (validateBoard_eq_nil_iff _).mp fullBoard_valid
  have hsucc : (backtrackFuel (buildCandidateCube rand) 81 emptyBoard).1
      = true :=
    backtrackFuel_completeness (buildCandidateCube_complete rand) hOkS
      fullBoard_full 81 emptyBoard (by rw [countEmpty_emptyBoard])
      (fun r c hne => absurd rfl hne)
  have hsound := backtrackFuel_sound (buildCandidateCube_inRange rand) 81
    emptyBoard Ok_emptyBoard hsucc
  intro r c
  rw [generateFullSolution_board_eq]
  exact hsound.2 r c

lemma generatePuzzle_puzzle_eq (clues : Nat) (rand : RandCube)
    (randPos : Nat → Nat) (clock : Nat → ℚ) :
    (generatePuzzle clues rand randPos clock).puzzle =
      removeAll ((shuffleArray randPos positionsRM).take (81 - clues))
        ((generateFullSolution rand clock).1) := by
  have hclone : ∀ b : Board, cloneBoard b = b := fun b => rfl
  simp only [generatePuzzle, hclone, removeAll]

lemma generatePuzzle_solution_eq (clues : Nat) (rand : RandCube)
    (randPos : Nat → Nat) (clock : Nat → ℚ) :
    (generatePuzzle clues rand randPos clock).solution =
      (generateFullSolution rand clock).1 := by
  simp only [generatePuzzle]

/-- Claim C2: For every `clueCount` in [0,81], `generatePuzzle(clueCount)`
returns a puzzle with exactly `clueCount` (= `min(clueCount, 81)`)
non-zero cells, each agreeing with the returned solution. -/
theorem c2_generatePuzzle_clues (clues : Nat) (rand : RandCube)
    (randPos : Nat → Nat) (clock : Nat → ℚ) (h : clues ≤ 81) :
    countFilled (generatePuzzle clues rand randPos clock).puzzle = clues ∧
      ∀ r c : Fin 9,
        (generatePuzzle clues rand randPos clock).puzzle r c ≠ 0 →
        (generatePuzzle clues rand randPos clock).puzzle r c =
          (generatePuzzle clues rand randPos clock).solution r c := by
  have hfull := generateFullSolution_complete rand clock
  set sol := (generateFullSolution rand clock).1 with hsol
  have hperm := shuffleArray_perm randPos positionsRM
  have hnd : (shuffleArray randPos positionsRM).Nodup :=
    hperm.nodup_iff.mpr nodup_positionsRM
  have hlen : (shuffleArray randPos positionsRM).length = 81 := by
    rw [hperm.length_eq]; decide
  set L := (shuffleArray randPos positionsRM).take (81 - clues) with hL
  have hLnd : L.Nodup := (List.take_sublist _ _).nodup hnd
  have hLlen : L.length = 81 - clues := by
    rw [hL, List.length_take, hlen]; omega
  have hLnz : ∀ p ∈ L, sol p.1 p.2 ≠ 0 := fun p _ => hfull p.1 p.2
  have hE0 : countEmpty sol = 0 := (countEmpty_eq_zero_iff sol).mpr hfull
  have hE : countEmpty (removeAll L sol) = 81 - clues := by
    rw [removeAll_countEmpty L sol hLnd hLnz, hE0, hLlen]
    omega
  constructor
  · rw [generatePuzzle_puzzle_eq]
    have := countFilled_add_countEmpty (removeAll L sol)
    rw [← hsol, ← hL] at *
    omega
  · intro r c hnz
    rw [generatePuzzle_puzzle_eq, ← hsol, ← hL] at hnz ⊢
    rw [generatePuzzle_solution_eq, ← hsol]
    rcases removeAll_agree L sol r c with h0 | hag
    · exact absurd h0 hnz
    · exact hag

/-- Witness for C2 at `clueCount = 32` with concrete oracles. -/
theorem c2_witness :
    countFilled (generatePuzzle 32 zeroRandC (fun n => n)
      clock0).puzzle = 32 :=
  (c2_generatePuzzle_clues 32 zeroRandC (fun n => n) clock0 (by decide)).1

end Sudoku
